import Mathlib

/-!
Verification of the news-video generator (webapp): feed normalization
(`app/api/headlines/route.ts`) and the page pipeline (`app/page.tsx`).

Text is modelled as `List Char` (JS strings at the character level).
Each definition is a shallow embedding of the corresponding source
function; doc comments cite the source location.
-/

/-- Character lists stand for JS strings. -/
abbrev Str := List Char

/-- The character class of the JS regex `\s` (and of `String.prototype.trim`):
WhiteSpace plus LineTerminator, per the ECMAScript definition. -/
def isJsWs (c : Char) : Bool :=
  c == ' ' || c == '\t' || c == '\n' || c == '\r' ||
  c == Char.ofNat 11 || c == Char.ofNat 12 ||
  c == Char.ofNat 0xa0 || c == Char.ofNat 0x1680 ||
  (0x2000 ≤ c.toNat && c.toNat ≤ 0x200a) ||
  c == Char.ofNat 0x2028 || c == Char.ofNat 0x2029 ||
  c == Char.ofNat 0x202f || c == Char.ofNat 0x205f ||
  c == Char.ofNat 0x3000 || c == Char.ofNat 0xfeff

/-- Embedding of `value.replace(/\s+/g, " ")` (route.ts:24, page.tsx:48):
every maximal run of whitespace is replaced by a single space.  A whitespace
character is skipped while the next character continues the run, and emits
one `' '` when the run ends. -/
def collapseWs : Str → Str
  | [] => []
  | [c] => if isJsWs c then [' '] else [c]
  | c :: d :: rest =>
    if isJsWs c then
      if isJsWs d then collapseWs (d :: rest) else ' ' :: collapseWs (d :: rest)
    else c :: collapseWs (d :: rest)

/-- Embedding of `String.prototype.trim` (route.ts:24, page.tsx:48): strip
leading and trailing whitespace. -/
def trimWs (l : Str) : Str :=
  (l.dropWhile isJsWs).rdropWhile isJsWs

/-- The condition under which the JS regex `<[^>]+>` matches at the current
position, the scanner standing just after a `<`: at least one non-`>`
character follows, and a `>` occurs after that run. -/
def tagCond (rest : Str) : Prop :=
  rest.takeWhile (fun x => x ≠ '>') ≠ [] ∧ rest.dropWhile (fun x => x ≠ '>') ≠ []

instance (rest : Str) : Decidable (tagCond rest) := by
  unfold tagCond; infer_instance

/-- Embedding of `value.replace(/<[^>]+>/g, " ")` (route.ts:24): each
leftmost, non-overlapping match of `<[^>]+>` — a `<`, one or more non-`>`
characters, then the first `>` — is replaced by one space, and scanning
resumes after the consumed match. -/
def stripTags : Str → Str
  | [] => []
  | c :: rest =>
    if h : c = '<' ∧ tagCond rest then
      ' ' :: stripTags (rest.dropWhile (fun x => x ≠ '>')).tail
    else
      c :: stripTags rest
termination_by l => l.length
decreasing_by
  · simp only [List.length_cons]
    have h1 : (rest.dropWhile (fun x => x ≠ '>')).length ≤ rest.length :=
      (List.dropWhile_suffix _).sublist.length_le
    cases hd : rest.dropWhile (fun x => x ≠ '>') with
    | nil => exact absurd hd h.2.2
    | cons a as =>
      rw [hd] at h1
      simp only [hd, List.tail_cons, List.length_cons] at *
      omega
  · simp

/-- A string contains a substring matched by the tag regex `<[^>]+>`. -/
def HasTag : Str → Prop
  | [] => False
  | c :: rest => (c = '<' ∧ tagCond rest) ∨ HasTag rest

/-- Embedding of `sanitizeText` (route.ts:22-25): falsy input (absent or
empty string) yields `""`; otherwise strip tags, collapse whitespace and
trim. -/
def sanitizeText (value : Option Str) : Str :=
  match value with
  | none => []
  | some s => if s = [] then [] else trimWs (collapseWs (stripTags s))

/-! ### Properties of `stripTags`, `collapseWs`, `trimWs` -/

theorem hasTag_cons (c : Char) (rest : Str) :
    HasTag (c :: rest) ↔ (c = '<' ∧ tagCond rest) ∨ HasTag rest := Iff.rfl

theorem not_hasTag_nil : ¬ HasTag [] := fun h => h

theorem not_tagCond_nil : ¬ tagCond [] := by
  intro h
  exact h.1 (by simp [List.takeWhile])

theorem not_hasTag_singleton (c : Char) : ¬ HasTag [c] := by
  intro h
  rcases h with ⟨_, htc⟩ | h
  · exact not_tagCond_nil htc
  · exact not_hasTag_nil h

theorem not_tagCond_cons_gt (r : Str) : ¬ tagCond ('>' :: r) := by
  intro h
  exact h.1 (by simp [List.takeWhile_cons])

theorem not_tagCond_of_no_gt {rest : Str} (h : '>' ∉ rest) : ¬ tagCond rest := by
  intro hc
  exact hc.2 (List.dropWhile_eq_nil_iff.mpr (fun x hx => by
    simp only [decide_eq_true_eq]
    rintro rfl
    exact h hx))

theorem tagCond_append {l t : Str} (h : tagCond l) : tagCond (l ++ t) := by
  obtain ⟨h1, h2⟩ := h
  constructor
  · cases l with
    | nil => simp at h1
    | cons a as =>
      simp only [List.takeWhile_cons] at h1 ⊢
      by_cases ha : (decide (a ≠ '>')) = true
      · have ha' : a ≠ '>' := by simpa using ha
        simp [ha']
      · simp [ha] at h1
  · intro hd
    apply h2
    rw [List.dropWhile_eq_nil_iff] at hd ⊢
    intro x hx
    exact hd x (List.mem_append_left _ hx)

theorem not_hasTag_append_left {l t : Str} (h : ¬ HasTag (l ++ t)) : ¬ HasTag l := by
  induction l with
  | nil => exact not_hasTag_nil
  | cons c l' ih =>
    intro hc
    rcases hc with ⟨hc1, hc2⟩ | hc
    · exact h (Or.inl ⟨hc1, tagCond_append hc2⟩)
    · exact ih (fun hh => h (Or.inr hh)) hc

theorem not_hasTag_append_right {t l : Str} (h : ¬ HasTag (t ++ l)) : ¬ HasTag l := by
  induction t with
  | nil => exact h
  | cons a t' ih => exact ih (fun hh => h (Or.inr hh))

theorem not_hasTag_of_initial {l' l : Str} (hp : l' <+: l) (h : ¬ HasTag l) :
    ¬ HasTag l' := by
  obtain ⟨t, ht⟩ := hp
  exact not_hasTag_append_left (ht ▸ h)

theorem not_hasTag_of_suffix {l' l : Str} (hp : l' <:+ l) (h : ¬ HasTag l) :
    ¬ HasTag l' := by
  obtain ⟨t, ht⟩ := hp
  exact not_hasTag_append_right (ht ▸ h)

theorem mem_stripTags {x : Char} {l : Str} (h : x ∈ stripTags l) : x ∈ l ∨ x = ' ' := by
  induction l using stripTags.induct with
  | case1 => simp [stripTags] at h
  | case2 c rest hcond ih =>
    rw [stripTags, dif_pos hcond] at h
    rcases List.mem_cons.mp h with h | h
    · exact Or.inr h
    · rcases ih h with h' | h'
      · exact Or.inl (List.mem_cons_of_mem _
          ((List.tail_sublist _).trans (List.dropWhile_suffix _).sublist |>.subset h'))
      · exact Or.inr h'
  | case3 c rest hcond ih =>
    rw [stripTags, dif_neg hcond] at h
    rcases List.mem_cons.mp h with h | h
    · exact Or.inl (h ▸ List.mem_cons_self _ _)
    · rcases ih h with h' | h'
      · exact Or.inl (List.mem_cons_of_mem _ h')
      · exact Or.inr h'

theorem stripTags_cons_not_lt {c : Char} {rest : Str} (h : ¬ c = '<') :
    stripTags (c :: rest) = c :: stripTags rest := by
  rw [stripTags, dif_neg (fun hc => h hc.1)]

theorem not_hasTag_stripTags (l : Str) : ¬ HasTag (stripTags l) := by
  induction l using stripTags.induct with
  | case1 => simp [stripTags]; exact not_hasTag_nil
  | case2 c rest hcond ih =>
    rw [stripTags, dif_pos hcond]
    intro h
    rcases h with ⟨hsp, _⟩ | h
    · exact absurd hsp (by decide)
    · exact ih h
  | case3 c rest hcond ih =>
    rw [stripTags, dif_neg hcond]
    intro h
    rcases h with ⟨hc, htc⟩ | h
    · subst hc
      have hnt : ¬ tagCond rest := fun htr => hcond ⟨rfl, htr⟩
      unfold tagCond at hnt
      push_neg at hnt
      by_cases htk : rest.takeWhile (fun x => x ≠ '>') = []
      · cases rest with
        | nil =>
          simp only [stripTags] at htc
          exact not_tagCond_nil htc
        | cons d r' =>
          simp only [List.takeWhile_cons] at htk
          by_cases hd : (decide (d ≠ '>')) = true
          · simp [hd] at htk
          · have hdgt : d = '>' := by
              simpa using hd
            subst hdgt
            rw [stripTags_cons_not_lt (by decide)] at htc
            exact not_tagCond_cons_gt _ htc
      · have hdw := hnt htk
        have hng : '>' ∉ rest := by
          rw [List.dropWhile_eq_nil_iff] at hdw
          intro hmem
          simpa using hdw _ hmem
        have hng' : '>' ∉ stripTags rest := by
          intro hmem
          rcases mem_stripTags hmem with h' | h'
          · exact hng h'
          · exact absurd h' (by decide)
        exact not_tagCond_of_no_gt hng' htc
    · exact ih h

theorem stripTags_eq_self {l : Str} (h : ¬ HasTag l) : stripTags l = l := by
  induction l using stripTags.induct with
  | case1 => simp [stripTags]
  | case2 c rest hcond ih =>
    exact absurd (Or.inl hcond) h
  | case3 c rest hcond ih =>
    rw [stripTags, dif_neg hcond]
    rw [ih (fun hh => h (Or.inr hh))]

/-- Whether a string starts with a whitespace character. -/
def headWs : Str → Bool
  | [] => false
  | c :: _ => isJsWs c

/-- Whitespace-normal form: every whitespace character is a plain space and
is not followed by another whitespace character. -/
def WsOk : Str → Prop
  | [] => True
  | c :: rest => (isJsWs c = true → c = ' ' ∧ headWs rest = false) ∧ WsOk rest

theorem wsOk_cons {c : Char} {rest : Str} (h : WsOk (c :: rest)) : WsOk rest := h.2

theorem isJsWs_space : isJsWs ' ' = true := by decide

theorem mem_collapseWs {x : Char} {l : Str} (h : x ∈ collapseWs l) : x ∈ l ∨ x = ' ' := by
  induction l using collapseWs.induct with
  | case1 => simp [collapseWs] at h
  | case2 c hc =>
    rw [collapseWs, if_pos hc] at h
    simp at h
    exact Or.inr h
  | case3 c hc =>
    rw [collapseWs, if_neg hc] at h
    exact Or.inl h
  | case4 c d rest hc hd ih =>
    rw [collapseWs, if_pos hc, if_pos hd] at h
    rcases ih h with h' | h'
    · exact Or.inl (List.mem_cons_of_mem _ h')
    · exact Or.inr h'
  | case5 c d rest hc hd ih =>
    rw [collapseWs, if_pos hc, if_neg hd] at h
    rcases List.mem_cons.mp h with h | h
    · exact Or.inr h
    · rcases ih h with h' | h'
      · exact Or.inl (List.mem_cons_of_mem _ h')
      · exact Or.inr h'
  | case6 c d rest hc ih =>
    rw [collapseWs, if_neg hc] at h
    rcases List.mem_cons.mp h with h | h
    · exact Or.inl (by simp [h])
    · rcases ih h with h' | h'
      · exact Or.inl (List.mem_cons_of_mem _ h')
      · exact Or.inr h'

theorem headWs_collapseWs (l : Str) : headWs (collapseWs l) = headWs l := by
  induction l using collapseWs.induct with
  | case1 => simp [collapseWs]
  | case2 c hc => rw [collapseWs, if_pos hc]; simp [headWs, hc, isJsWs_space]
  | case3 c hc => rw [collapseWs, if_neg hc]
  | case4 c d rest hc hd ih =>
    rw [collapseWs, if_pos hc, if_pos hd, ih]
    simp [headWs, hc, hd]
  | case5 c d rest hc hd ih =>
    rw [collapseWs, if_pos hc, if_neg hd]
    simp [headWs, hc, isJsWs_space]
  | case6 c d rest hc ih =>
    rw [collapseWs, if_neg hc]
    simp [headWs]

theorem wsOk_collapseWs (l : Str) : WsOk (collapseWs l) := by
  induction l using collapseWs.induct with
  | case1 => rw [collapseWs]; trivial
  | case2 c hc =>
    rw [collapseWs, if_pos hc]
    exact ⟨fun _ => ⟨rfl, rfl⟩, trivial⟩
  | case3 c hc =>
    rw [collapseWs, if_neg hc]
    exact ⟨fun hh => absurd hh hc, trivial⟩
  | case4 c d rest hc hd ih =>
    rw [collapseWs, if_pos hc, if_pos hd]
    exact ih
  | case5 c d rest hc hd ih =>
    rw [collapseWs, if_pos hc, if_neg hd]
    refine ⟨fun _ => ⟨rfl, ?_⟩, ih⟩
    rw [headWs_collapseWs]
    simpa [headWs] using hd
  | case6 c d rest hc ih =>
    rw [collapseWs, if_neg hc]
    exact ⟨fun hh => absurd hh hc, ih⟩

theorem collapseWs_eq_self {l : Str} (h : WsOk l) : collapseWs l = l := by
  induction l using collapseWs.induct with
  | case1 => rw [collapseWs]
  | case2 c hc => rw [collapseWs, if_pos hc, (h.1 hc).1]
  | case3 c hc => rw [collapseWs, if_neg hc]
  | case4 c d rest hc hd ih =>
    exact absurd (h.1 hc).2 (by simp [headWs, hd])
  | case5 c d rest hc hd ih =>
    rw [collapseWs, if_pos hc, if_neg hd, (h.1 hc).1, ih (wsOk_cons h)]
  | case6 c d rest hc ih =>
    rw [collapseWs, if_neg hc, ih (wsOk_cons h)]

theorem wsOk_append_left {l t : Str} (h : WsOk (l ++ t)) : WsOk l := by
  induction l with
  | nil => trivial
  | cons c l' ih =>
    refine ⟨fun hc => ⟨(h.1 hc).1, ?_⟩, ih h.2⟩
    have h2 := (h.1 hc).2
    cases l' with
    | nil => simp [headWs]
    | cons e es => simpa [headWs] using h2

theorem wsOk_append_right {t l : Str} (h : WsOk (t ++ l)) : WsOk l := by
  induction t with
  | nil => exact h
  | cons a t' ih => exact ih h.2

theorem wsOk_of_initial {l' l : Str} (hp : l' <+: l) (h : WsOk l) : WsOk l' := by
  obtain ⟨t, ht⟩ := hp
  exact wsOk_append_left (ht ▸ h)

theorem wsOk_of_suffix {l' l : Str} (hp : l' <:+ l) (h : WsOk l) : WsOk l' := by
  obtain ⟨t, ht⟩ := hp
  exact wsOk_append_right (ht ▸ h)

theorem wsOk_trimWs {l : Str} (h : WsOk l) : WsOk (trimWs l) := by
  have hpre := List.rdropWhile_prefix isJsWs (l.dropWhile isJsWs)
  exact wsOk_of_initial hpre (wsOk_of_suffix (List.dropWhile_suffix _) h)

theorem not_hasTag_trimWs {l : Str} (h : ¬ HasTag l) : ¬ HasTag (trimWs l) := by
  have hpre := List.rdropWhile_prefix isJsWs (l.dropWhile isJsWs)
  exact not_hasTag_of_initial hpre (not_hasTag_of_suffix (List.dropWhile_suffix _) h)

theorem trimWs_trimWs (l : Str) : trimWs (trimWs l) = trimWs l := by
  unfold trimWs
  have h1 : ((l.dropWhile isJsWs).rdropWhile isJsWs).dropWhile isJsWs
      = (l.dropWhile isJsWs).rdropWhile isJsWs := by
    cases hr : (l.dropWhile isJsWs).rdropWhile isJsWs with
    | nil => simp
    | cons c t =>
      obtain ⟨s, hs⟩ := List.rdropWhile_prefix isJsWs (l.dropWhile isJsWs)
      rw [hr] at hs
      have hci : isJsWs c = false := by
        by_contra hc
        rw [Bool.not_eq_false] at hc
        have hd : l.dropWhile isJsWs = c :: (t ++ s) := by
          rw [← hs]; simp
        have hidem := List.dropWhile_idempotent isJsWs l
        rw [hd, List.dropWhile_cons_of_pos hc] at hidem
        have hlen : ((t ++ s).dropWhile isJsWs).length = (c :: (t ++ s)).length :=
          congrArg List.length hidem
        have h2 : ((t ++ s).dropWhile isJsWs).length ≤ (t ++ s).length :=
          (List.dropWhile_suffix _).sublist.length_le
        simp only [List.length_cons] at hlen
        omega
      rw [List.dropWhile_cons_of_neg (by simp [hci])]
  rw [h1, List.rdropWhile_idempotent]

theorem collapseWs_cons_of_not_ws {c : Char} (r : Str) (hc : isJsWs c = false) :
    collapseWs (c :: r) = c :: collapseWs r := by
  cases r with
  | nil => simp [collapseWs, hc]
  | cons d rs => rw [collapseWs, if_neg (by simp [hc])]

theorem not_hasTag_collapseWs {l : Str} (h : ¬ HasTag l) : ¬ HasTag (collapseWs l) := by
  induction l using collapseWs.induct with
  | case1 => rw [collapseWs]; exact not_hasTag_nil
  | case2 c hc => rw [collapseWs, if_pos hc]; exact not_hasTag_singleton _
  | case3 c hc => rw [collapseWs, if_neg hc]; exact not_hasTag_singleton _
  | case4 c d rest hc hd ih =>
    rw [collapseWs, if_pos hc, if_pos hd]
    exact ih (fun hh => h (Or.inr hh))
  | case5 c d rest hc hd ih =>
    rw [collapseWs, if_pos hc, if_neg hd]
    intro hh
    rcases hh with ⟨hsp, _⟩ | hh
    · exact absurd hsp (by decide)
    · exact ih (fun hx => h (Or.inr hx)) hh
  | case6 c d rest hc ih =>
    rw [collapseWs, if_neg hc]
    intro hh
    rcases hh with ⟨hc', htc⟩ | hh
    · subst hc'
      have hnt : ¬ tagCond (d :: rest) := fun htr => h (Or.inl ⟨rfl, htr⟩)
      unfold tagCond at hnt
      push_neg at hnt
      by_cases htk : (d :: rest).takeWhile (fun x => x ≠ '>') = []
      · simp only [List.takeWhile_cons] at htk
        by_cases hdgt : (decide (d ≠ '>')) = true
        · simp [hdgt] at htk
        · have hdq : d = '>' := by simpa using hdgt
          subst hdq
          rw [collapseWs_cons_of_not_ws _ (by decide)] at htc
          exact not_tagCond_cons_gt _ htc
      · have hdw := hnt htk
        have hng : '>' ∉ (d :: rest) := by
          rw [List.dropWhile_eq_nil_iff] at hdw
          intro hmem
          simpa using hdw _ hmem
        have hng' : '>' ∉ collapseWs (d :: rest) := by
          intro hmem
          rcases mem_collapseWs hmem with h' | h'
          · exact hng h'
          · exact absurd h' (by decide)
        exact not_tagCond_of_no_gt hng' htc
    · exact ih (fun hx => h (Or.inr hx)) hh

theorem sanitize_core_fixed (s : Str) :
    collapseWs (trimWs (collapseWs (stripTags s))) = trimWs (collapseWs (stripTags s)) ∧
    trimWs (trimWs (collapseWs (stripTags s))) = trimWs (collapseWs (stripTags s)) ∧
    stripTags (trimWs (collapseWs (stripTags s))) = trimWs (collapseWs (stripTags s)) := by
  refine ⟨?_, trimWs_trimWs _, ?_⟩
  · exact collapseWs_eq_self (wsOk_trimWs (wsOk_collapseWs _))
  · exact stripTags_eq_self (not_hasTag_trimWs (not_hasTag_collapseWs (not_hasTag_stripTags s)))

theorem trimWs_nil : trimWs [] = [] := by simp [trimWs]

/-- C10: the text sanitizer is idempotent — `sanitizeText (sanitizeText s) =
sanitizeText s` for every string `s` — and equivalently every returned string
is a fixed point of whitespace collapsing (no runs of more than one
whitespace character, every whitespace being a plain space), a fixed point of
trimming, and contains no substring matched by the tag-stripping pattern
`<[^>]+>`. -/
theorem sanitizeText_idempotent (s : Str) :
    sanitizeText (some (sanitizeText (some s))) = sanitizeText (some s) ∧
    collapseWs (sanitizeText (some s)) = sanitizeText (some s) ∧
    trimWs (sanitizeText (some s)) = sanitizeText (some s) ∧
    ¬ HasTag (sanitizeText (some s)) := by
  by_cases hs : s = []
  · subst hs
    refine ⟨rfl, by rw [sanitizeText, if_pos rfl, collapseWs], ?_, ?_⟩
    · rw [sanitizeText, if_pos rfl, trimWs_nil]
    · rw [sanitizeText, if_pos rfl]
      exact not_hasTag_nil
  · have hv : sanitizeText (some s) = trimWs (collapseWs (stripTags s)) := by
      rw [sanitizeText, if_neg hs]
    obtain ⟨hcol, htrim, hstrip⟩ := sanitize_core_fixed s
    refine ⟨?_, by rw [hv]; exact hcol, by rw [hv]; exact htrim, ?_⟩
    · rw [hv, sanitizeText]
      by_cases ht : trimWs (collapseWs (stripTags s)) = []
      · rw [if_pos ht, ht]
      · rw [if_neg ht, hstrip, hcol, htrim]
    · rw [hv]
      exact not_hasTag_trimWs (not_hasTag_collapseWs (not_hasTag_stripTags s))

/-! ### Word wrapping (`wrapHeadlineText`, page.tsx:39-88) -/

/-- Embedding of `normalized.split(" ")` (page.tsx:51): split at every single
space character; `"".split(" ")` is `[""]`. -/
def splitWords : Str → List Str
  | [] => [[]]
  | c :: rest =>
    if c = ' ' then [] :: splitWords rest
    else
      match splitWords rest with
      | w :: ws => (c :: w) :: ws
      | [] => [[c]]

/-- Embedding of the greedy line-accumulation loop (page.tsx:55-68): append
each word to the running line, measuring the candidate; when the candidate
exceeds the budget and the line is non-empty, commit the line and restart
from the word; finally commit a non-empty trailing line. -/
def greedyWrap (measure : Str → ℕ) (maxWidth : ℕ) : List Str → Str → List Str
  | [], line => if line = [] then [] else [line]
  | w :: ws, line =>
    if maxWidth < measure (if line = [] then w else line ++ ' ' :: w) ∧ line ≠ [] then
      line :: greedyWrap measure maxWidth ws w
    else
      greedyWrap measure maxWidth ws (if line = [] then w else line ++ ' ' :: w)

/-- Truncation loop over the reversed tail of the last line: drop the last
character while the line plus the ellipsis exceeds the budget. -/
def truncGo (measure : Str → ℕ) (maxWidth : ℕ) : Str → Str
  | [] => []
  | c :: revs =>
    if maxWidth < measure ((c :: revs).reverse ++ ['…']) then truncGo measure maxWidth revs
    else c :: revs

/-- Embedding of the `while` loop of page.tsx:75-77: repeatedly remove the
final character of `s` while `s + "…"` measures over the budget and `s` is
non-empty. -/
def truncateToFit (measure : Str → ℕ) (maxWidth : ℕ) (s : Str) : Str :=
  (truncGo measure maxWidth s.reverse).reverse

/-- Embedding of `wrapHeadlineText` (page.tsx:39-88), with the canvas context
abstracted to the width measure `measure`.  Returns the list of drawn lines
(the source draws them and returns the final y offset; the drawn lines are
what the claims are about).  `maxLines` is a natural number, so the source's
`Math.max(1, Math.floor(maxLines))` becomes `max 1 maxLines`. -/
def wrapHeadlineText (measure : Str → ℕ) (maxWidth : ℕ) (text : Str) (maxLines : ℕ) :
    List Str :=
  let normalized := trimWs (collapseWs text)
  if normalized = [] then []
  else
    let lines := greedyWrap measure maxWidth (splitWords normalized) []
    let limit := max 1 maxLines
    let bounded := lines.take limit
    if limit < lines.length then
      bounded.dropLast ++ [truncateToFit measure maxWidth (bounded.getLast?.getD []) ++ ['…']]
    else bounded

/-- Join a non-empty list of words with single spaces. -/
def joinWords : List Str → Str
  | [] => []
  | [w] => w
  | w :: ws => w ++ ' ' :: joinWords ws

/-- The string the greedy loop would build if no commit ever fired, starting
from the running line `line`. -/
def joinSp : Str → List Str → Str
  | line, [] => line
  | line, w :: ws => joinSp (if line = [] then w else line ++ ' ' :: w) ws

theorem joinWords_cons_cons (a b : Str) (ws : List Str) :
    joinWords (a :: b :: ws) = a ++ ' ' :: joinWords (b :: ws) := rfl

theorem joinWords_append_word (a b : Str) (ws : List Str) :
    joinWords ((a ++ ' ' :: b) :: ws) = a ++ ' ' :: joinWords (b :: ws) := by
  cases ws with
  | nil => rfl
  | cons x xs => rw [joinWords_cons_cons, joinWords_cons_cons, List.append_assoc]; rfl

theorem joinSp_of_ne_nil : ∀ (ws : List Str) (line : Str), line ≠ [] →
    joinSp line ws = joinWords (line :: ws) := by
  intro ws
  induction ws with
  | nil => intro line _; rfl
  | cons w ws ih =>
    intro line hline
    rw [joinSp, if_neg hline, ih _ (by simp), joinWords_append_word,
      joinWords_cons_cons]

theorem splitWords_ne_nil (l : Str) : splitWords l ≠ [] := by
  cases l with
  | nil => simp [splitWords]
  | cons c rest =>
    rw [splitWords]
    by_cases hc : c = ' '
    · simp [hc]
    · rw [if_neg hc]
      cases h : splitWords rest with
      | nil => simp
      | cons w ws => simp

theorem joinWords_splitWords (l : Str) : joinWords (splitWords l) = l := by
  induction l with
  | nil => rfl
  | cons c rest ih =>
    rw [splitWords]
    by_cases hc : c = ' '
    · rw [if_pos hc]
      cases h : splitWords rest with
      | nil => exact absurd h (splitWords_ne_nil rest)
      | cons w ws =>
        rw [h] at ih
        rw [joinWords_cons_cons, ← ih, hc]
        simp
    · rw [if_neg hc]
      cases h : splitWords rest with
      | nil => exact absurd h (splitWords_ne_nil rest)
      | cons w ws =>
        rw [h] at ih
        cases ws with
        | nil => rw [joinWords]; rw [joinWords] at ih; rw [ih]
        | cons x xs => rw [joinWords_cons_cons, ← ih, joinWords_cons_cons]; simp

theorem joinSp_splitWords {c : Char} (rest : Str) (hc : c ≠ ' ') :
    joinSp [] (splitWords (c :: rest)) = c :: rest := by
  rw [splitWords, if_neg hc]
  cases h : splitWords rest with
  | nil => exact absurd h (splitWords_ne_nil rest)
  | cons w ws =>
    rw [joinSp, if_pos rfl, joinSp_of_ne_nil _ _ (by simp)]
    have hj := joinWords_splitWords (c :: rest)
    rw [splitWords, if_neg hc, h] at hj
    exact hj

theorem joinSp_extends : ∀ (ws : List Str) (line : Str), ∃ t, joinSp line ws = line ++ t := by
  intro ws
  induction ws with
  | nil => intro line; exact ⟨[], by simp [joinSp]⟩
  | cons w ws ih =>
    intro line
    obtain ⟨t, ht⟩ := ih (if line = [] then w else line ++ ' ' :: w)
    by_cases hl : line = []
    · rw [if_pos hl] at ht
      refine ⟨w ++ t, ?_⟩
      rw [joinSp, if_pos hl, ht, hl]
      simp
    · rw [if_neg hl] at ht
      refine ⟨(' ' :: w) ++ t, ?_⟩
      rw [joinSp, if_neg hl, ht]
      simp

theorem greedyWrap_all_fit (measure : Str → ℕ) (maxWidth : ℕ)
    (hmono : ∀ s t : Str, measure s ≤ measure (s ++ t)) :
    ∀ (ws : List Str) (line : Str), measure (joinSp line ws) ≤ maxWidth →
    greedyWrap measure maxWidth ws line =
      if joinSp line ws = [] then [] else [joinSp line ws] := by
  intro ws
  induction ws with
  | nil => intro line h; rfl
  | cons w ws ih =>
    intro line h
    have hj : joinSp line (w :: ws) = joinSp (if line = [] then w else line ++ ' ' :: w) ws :=
      rfl
    obtain ⟨t, ht⟩ := joinSp_extends ws (if line = [] then w else line ++ ' ' :: w)
    have hle : measure (if line = [] then w else line ++ ' ' :: w) ≤ maxWidth := by
      have hm := hmono (if line = [] then w else line ++ ' ' :: w) t
      rw [← ht] at hm
      exact le_trans hm (hj ▸ h)
    have hcond : ¬ (maxWidth < measure (if line = [] then w else line ++ ' ' :: w) ∧
        line ≠ []) := fun hcc => absurd hle (Nat.not_le.mpr hcc.1)
    rw [greedyWrap, if_neg hcond, hj]
    exact ih _ (hj ▸ h)

theorem dropWhile_trimWs (l : Str) : (trimWs l).dropWhile isJsWs = trimWs l := by
  unfold trimWs
  cases hr : (l.dropWhile isJsWs).rdropWhile isJsWs with
  | nil => simp
  | cons c t =>
    obtain ⟨s, hs⟩ := List.rdropWhile_prefix isJsWs (l.dropWhile isJsWs)
    rw [hr] at hs
    have hci : isJsWs c = false := by
      by_contra hc
      rw [Bool.not_eq_false] at hc
      have hd : l.dropWhile isJsWs = c :: (t ++ s) := by
        rw [← hs]; simp
      have hidem := List.dropWhile_idempotent isJsWs l
      rw [hd, List.dropWhile_cons_of_pos hc] at hidem
      have hlen : ((t ++ s).dropWhile isJsWs).length = (c :: (t ++ s)).length :=
        congrArg List.length hidem
      have h2 : ((t ++ s).dropWhile isJsWs).length ≤ (t ++ s).length :=
        (List.dropWhile_suffix _).sublist.length_le
      simp only [List.length_cons] at hlen
      omega
    rw [List.dropWhile_cons_of_neg (by simp [hci])]

theorem trimWs_head_not_ws {l : Str} {c : Char} {rest : Str}
    (h : trimWs l = c :: rest) : isJsWs c = false := by
  have hd := dropWhile_trimWs l
  rw [h] at hd
  by_contra hc
  rw [Bool.not_eq_false] at hc
  rw [List.dropWhile_cons_of_pos hc] at hd
  have hlen := congrArg List.length hd
  have h2 : (rest.dropWhile isJsWs).length ≤ rest.length :=
    (List.dropWhile_suffix _).sublist.length_le
  simp only [List.length_cons] at hlen
  omega

/-- C3 (amended): an input whose whitespace-collapsed trim is non-empty and
fits the width budget — the measure being monotone under appending, as a
rendering surface's text metrics are — wraps to exactly one line, equal to
the trimmed whitespace-collapsed input, with no ellipsis appended. -/
theorem wrapHeadlineText_single_line (measure : Str → ℕ) (maxWidth : ℕ) (text : Str)
    (maxLines : ℕ) (hmono : ∀ s t : Str, measure s ≤ measure (s ++ t))
    (hne : trimWs (collapseWs text) ≠ [])
    (hfit : measure (trimWs (collapseWs text)) ≤ maxWidth) :
    wrapHeadlineText measure maxWidth text maxLines = [trimWs (collapseWs text)] := by
  obtain ⟨c, rest, hcr⟩ : ∃ c rest, trimWs (collapseWs text) = c :: rest := by
    cases h : trimWs (collapseWs text) with
    | nil => exact absurd h hne
    | cons c rest => exact ⟨c, rest, rfl⟩
  have hcws : isJsWs c = false := trimWs_head_not_ws hcr
  have hcsp : c ≠ ' ' := by
    intro hsp
    rw [hsp, isJsWs_space] at hcws
    simp at hcws
  have hjoin : joinSp [] (splitWords (trimWs (collapseWs text))) = trimWs (collapseWs text) := by
    rw [hcr]
    exact joinSp_splitWords rest hcsp
  have hlines : greedyWrap measure maxWidth (splitWords (trimWs (collapseWs text))) []
      = [trimWs (collapseWs text)] := by
    rw [greedyWrap_all_fit measure maxWidth hmono _ [] (by rw [hjoin]; exact hfit), hjoin,
      if_neg hne]
  rw [wrapHeadlineText]
  simp only [if_neg hne, hlines]
  have hlim : ¬ (max 1 maxLines < ([trimWs (collapseWs text)] : List Str).length) := by
    simp
  rw [if_neg hlim]
  exact List.take_of_length_le (by simp)

/-- C3 witness: a concrete instance of the amended single-line theorem. -/
theorem wrapHeadlineText_single_line_witness :
    wrapHeadlineText List.length 5 " ab c ".data 3 = [trimWs (collapseWs " ab c ".data)] :=
  wrapHeadlineText_single_line List.length 5 " ab c ".data 3
    (fun s t => by simp) (by decide) (by decide)

/-- C3 counterexample: a whitespace-only input collapses and trims to the
empty string, which fits any budget, yet `wrapHeadlineText` draws zero lines
rather than the one (empty) line the claim requires. -/
theorem wrapHeadlineText_single_line_counterexample :
    wrapHeadlineText (fun _ => 0) 0 " ".data 6 ≠ [trimWs (collapseWs " ".data)] := by
  decide

theorem truncGo_fits (measure : Str → ℕ) (maxWidth : ℕ) :
    ∀ rev : Str, measure ((truncGo measure maxWidth rev).reverse ++ ['…']) ≤ maxWidth ∨
      truncGo measure maxWidth rev = [] := by
  intro rev
  induction rev with
  | nil => right; rfl
  | cons c revs ih =>
    rw [truncGo]
    by_cases h : maxWidth < measure ((c :: revs).reverse ++ ['…'])
    · rw [if_pos h]
      exact ih
    · rw [if_neg h]
      exact Or.inl (Nat.not_lt.mp h)

theorem truncateToFit_fits (measure : Str → ℕ) (maxWidth : ℕ) (s : Str)
    (hell : measure ['…'] ≤ maxWidth) :
    measure (truncateToFit measure maxWidth s ++ ['…']) ≤ maxWidth := by
  rcases truncGo_fits measure maxWidth s.reverse with h | h
  · simpa [truncateToFit] using h
  · simp only [truncateToFit, h, List.reverse_nil, List.nil_append]
    exact hell

/-- C2 (amended): when the greedy wrap yields exactly `maxLines + 1` lines,
`maxLines` is at least 1 and the ellipsis alone fits the budget, the function
draws exactly `maxLines` lines, the last drawn line ends with the ellipsis
character, and its measured width including the ellipsis is within the
budget. -/
theorem wrapHeadlineText_truncates (measure : Str → ℕ) (maxWidth : ℕ) (text : Str)
    (maxLines : ℕ) (hml : 1 ≤ maxLines) (hell : measure ['…'] ≤ maxWidth)
    (hlen : (greedyWrap measure maxWidth (splitWords (trimWs (collapseWs text))) []).length
      = maxLines + 1) :
    (wrapHeadlineText measure maxWidth text maxLines).length = maxLines ∧
    ∃ t, (wrapHeadlineText measure maxWidth text maxLines).getLast? = some (t ++ ['…']) ∧
      measure (t ++ ['…']) ≤ maxWidth := by
  have hne : trimWs (collapseWs text) ≠ [] := by
    intro h0
    rw [h0] at hlen
    simp [splitWords, greedyWrap] at hlen
  have hmax : max 1 maxLines = maxLines := Nat.max_eq_right hml
  have hlt : max 1 maxLines <
      (greedyWrap measure maxWidth (splitWords (trimWs (collapseWs text))) []).length := by
    rw [hmax, hlen]
    omega
  rw [wrapHeadlineText]
  simp only [if_neg hne, if_pos hlt]
  constructor
  · rw [List.length_append, List.length_dropLast, List.length_take, hlen, hmax]
    simp only [List.length_singleton]
    omega
  · refine ⟨truncateToFit measure maxWidth
      (((greedyWrap measure maxWidth (splitWords (trimWs (collapseWs text))) []).take
        (max 1 maxLines)).getLast?.getD []), ?_, ?_⟩
    · rw [List.getLast?_concat]
    · exact truncateToFit_fits measure maxWidth _ hell

/-- C2 witness: a concrete instance of the amended truncation theorem. -/
theorem wrapHeadlineText_truncates_witness :
    (wrapHeadlineText List.length 1 "a b".data 1).length = 1 ∧
    ∃ t, (wrapHeadlineText List.length 1 "a b".data 1).getLast? = some (t ++ ['…']) ∧
      List.length (t ++ ['…']) ≤ 1 :=
  wrapHeadlineText_truncates List.length 1 "a b".data 1 (by decide) (by decide) (by decide)

/-- C2 counterexample: with budget 0 and the character-count measure, the
greedy wrap of `"a b"` yields `maxLines + 1 = 2` lines, yet the single drawn
line is `"…"`, whose measured width 1 exceeds the budget 0 — the width bound
of the claim fails because the truncation loop stops at the empty string and
appends the ellipsis regardless. -/
theorem wrapHeadlineText_truncates_counterexample :
    (greedyWrap List.length 0 (splitWords (trimWs (collapseWs "a b".data))) []).length
      = 1 + 1 ∧
    wrapHeadlineText List.length 0 "a b".data 1 = [['…']] ∧
    0 < List.length ['…'] := by
  refine ⟨by decide, by decide, by decide⟩

/-! ### Feed retrieval and normalization (`route.ts`) -/

/-- A normalized headline record (page.tsx:7-12, produced at route.ts:53-58). -/
structure Headline where
  title : Str
  link : Str
  publishedAt : Str
  description : Str
deriving DecidableEq

/-- A parsed RSS `item` (route.ts:4-9); every field is optional. -/
structure RssItem where
  title : Option Str
  link : Option Str
  pubDate : Option Str
  description : Option Str
deriving DecidableEq

/-- The `item` field of a parsed channel: either a list of items or — when
the feed has exactly one item — a single (truthy, non-array) object. -/
inductive ItemsField where
  | list (xs : List RssItem)
  | single (x : RssItem)
deriving DecidableEq

/-- A parsed channel: its `item` key may be absent. -/
structure Channel where
  item : Option ItemsField
deriving DecidableEq

/-- Embedding of
`Array.isArray(channel?.item) ? channel.item : channel?.item ? [channel.item] : []`
(route.ts:47-51).  A missing channel or a missing `item` key yields `[]`;
a single non-array item (an object, hence truthy) is coerced to a
one-element list. -/
def itemsOf (channel : Option Channel) : List RssItem :=
  match channel with
  | none => []
  | some ch =>
    match ch.item with
    | some (ItemsField.list xs) => xs
    | some (ItemsField.single x) => [x]
    | none => []

/-- The placeholder title (route.ts:54). -/
def unknownTitle : Str := "अज्ञात शीर्षक".data

/-- Embedding of the per-item mapping at route.ts:53-58:
`sanitizeText(item.title) || placeholder`, `item.link ?? ""`,
`item.pubDate ?? ""`, `sanitizeText(item.description)`.  The JS `||` falls
through exactly when the sanitized title is the empty string. -/
def toHeadline (item : RssItem) : Headline :=
  { title := if sanitizeText item.title = [] then unknownTitle else sanitizeText item.title
    link := item.link.getD []
    publishedAt := item.pubDate.getD []
    description := sanitizeText item.description }

/-- Embedding of `items.slice(0, 6).map(...)` (route.ts:53). -/
def normalizeItems (items : List RssItem) : List Headline :=
  (items.take 6).map toHeadline

/-- The full normalization step: coerce the channel's items, truncate to 6,
map to headlines. -/
def normalizeFeed (channel : Option Channel) : List Headline :=
  normalizeItems (itemsOf channel)

/-- The JSON body of the route's response: either `{ headlines: ... }` or
`{ error: ... }`. -/
inductive RouteBody where
  | headlines (hs : List Headline)
  | error (msg : Str)
deriving DecidableEq

/-- An HTTP response of the route: status code plus JSON body. -/
structure HttpResponse where
  status : ℕ
  body : RouteBody
deriving DecidableEq

/-- The possible outcomes of the upstream fetch-and-parse, as seen by the
route's `try` block: the fetch itself throws; the response has a non-success
status; or a body is obtained and parsing it either throws or yields the
(optional) `rss.channel` object. -/
inductive UpstreamOutcome where
  | throwTransport
  | notOk
  | okBody (parse : Except Str (Option Channel))

/-- Embedding of the route handler `GET` (route.ts:27-68): non-success
upstream status returns 502 `{ error }` (route.ts:37-42); a successful parse
returns 200 `{ headlines }` (route.ts:60); any throw is caught and returns
500 `{ error }` (route.ts:61-67). -/
def routeGET (o : UpstreamOutcome) : HttpResponse :=
  match o with
  | UpstreamOutcome.throwTransport =>
    ⟨500, RouteBody.error "Unexpected error while fetching headlines".data⟩
  | UpstreamOutcome.notOk =>
    ⟨502, RouteBody.error "Failed to fetch headlines".data⟩
  | UpstreamOutcome.okBody (Except.error _) =>
    ⟨500, RouteBody.error "Unexpected error while fetching headlines".data⟩
  | UpstreamOutcome.okBody (Except.ok channel) =>
    ⟨200, RouteBody.headlines (normalizeFeed channel)⟩

/-- C5: the normalizer turns a channel whose `item` field is a single
non-array object into the one-element headline list built from that item;
a channel without an `item` key, or an absent channel, yields the empty
list rather than an error. -/
theorem normalizeFeed_single_and_missing :
    (∀ x : RssItem, normalizeFeed (some ⟨some (ItemsField.single x)⟩) = [toHeadline x]) ∧
    normalizeFeed (some ⟨none⟩) = [] ∧
    normalizeFeed none = [] := by
  refine ⟨fun x => rfl, rfl, rfl⟩

/-- C6: the normalization step keeps exactly the first `min (length, 6)`
items in feed order: the result has length `min items.length 6`, and its
`i`-th entry is the headline built from the `i`-th item when `i < 6`, and
absent otherwise. -/
theorem normalizeItems_take_six (items : List RssItem) :
    (normalizeItems items).length = min items.length 6 ∧
    ∀ i : ℕ, (normalizeItems items)[i]? =
      if i < 6 then (items[i]?).map toHeadline else none := by
  constructor
  · rw [normalizeItems, List.length_map, List.length_take, Nat.min_comm]
  · intro i
    by_cases hi : i < 6
    · rw [if_pos hi, normalizeItems, List.getElem?_map, List.getElem?_take, if_pos hi]
    · rw [if_neg hi, normalizeItems, List.getElem?_map]
      have : (items.take 6)[i]? = none := by
        rw [List.getElem?_eq_none_iff]
        calc (items.take 6).length ≤ 6 := List.length_take_le _ _
        _ ≤ i := Nat.le_of_not_lt hi
      rw [this]
      rfl

/-- C9: the route returns 200 with a `{ headlines }` body exactly on a
successful fetch and parse, 502 with an `{ error }` body on a non-success
upstream status, and 500 with an `{ error }` body on any other thrown
failure (transport or parse). -/
theorem routeGET_status_shapes :
    (∀ ch : Option Channel, routeGET (UpstreamOutcome.okBody (Except.ok ch)) =
      ⟨200, RouteBody.headlines (normalizeFeed ch)⟩) ∧
    (∃ m, routeGET UpstreamOutcome.notOk = ⟨502, RouteBody.error m⟩) ∧
    (∃ m, routeGET UpstreamOutcome.throwTransport = ⟨500, RouteBody.error m⟩) ∧
    (∀ e : Str, ∃ m, routeGET (UpstreamOutcome.okBody (Except.error e)) =
      ⟨500, RouteBody.error m⟩) := by
  exact ⟨fun ch => rfl, ⟨_, rfl⟩, ⟨_, rfl⟩, fun e => ⟨_, rfl⟩⟩

/-! ### Date formatting (`formatToHindiDate`, page.tsx:27-37) -/

/-- The fixed placeholder `"समय उपलब्ध नहीं"` (page.tsx:28,30). -/
def timeUnavailable : Str := "समय उपलब्ध नहीं".data

/-- Embedding of `formatToHindiDate` (page.tsx:27-37).  The host `Dateed`
parser is abstracted as `parseDate` (`none` models an Invalid Date, i.e.
`Number.isNaN(date.valueOf())`), and the host `Intl.DateTimeFormat`
formatter as `fmt`.  The function is total: it never throws. -/
def formatToHindiDate {D : Type} (parseDate : Str → Option D) (fmt : D → Str)
    (value : Str) : Str :=
  if value = [] then timeUnavailable
  else
    match parseDate value with
    | none => timeUnavailable
    | some d => fmt d

/-- C7: for every input the formatter returns (it is a total function, so it
never throws): the fixed placeholder when the input is empty or does not
parse, and the non-empty localized string `fmt d` when the input parses as
date `d` — assuming the host formatter returns non-empty strings and the
host parser rejects the empty string, as `new Date("")` is invalid. -/
theorem formatToHindiDate_spec {D : Type} (parseDate : Str → Option D) (fmt : D → Str)
    (hfmt : ∀ d, fmt d ≠ []) (hempty : parseDate [] = none) :
    ∀ value : Str,
      ((value = [] ∨ parseDate value = none) →
        formatToHindiDate parseDate fmt value = timeUnavailable) ∧
      (∀ d, parseDate value = some d →
        formatToHindiDate parseDate fmt value = fmt d ∧
        formatToHindiDate parseDate fmt value ≠ []) := by
  intro value
  constructor
  · intro hv
    rcases hv with hv | hv
    · rw [formatToHindiDate, if_pos hv]
    · by_cases hval : value = []
      · rw [formatToHindiDate, if_pos hval]
      · rw [formatToHindiDate, if_neg hval, hv]
  · intro d hd
    have hval : value ≠ [] := by
      intro h0
      rw [h0, hempty] at hd
      exact Option.noConfusion hd
    rw [formatToHindiDate, if_neg hval, hd]
    exact ⟨rfl, hfmt d⟩

/-- C7 witness: the theorem applied to a concrete parser and formatter. -/
theorem formatToHindiDate_spec_witness :
    ((("x".data : Str) = [] ∨
        (fun s : Str => if s = "x".data then some () else none) "x".data = none) →
      formatToHindiDate (fun s : Str => if s = "x".data then some () else none)
        (fun _ => "d".data) "x".data = timeUnavailable) ∧
    (∀ d : Unit,
      (fun s : Str => if s = "x".data then some () else none) "x".data = some d →
      formatToHindiDate (fun s : Str => if s = "x".data then some () else none)
        (fun _ => "d".data) "x".data = "d".data ∧
      formatToHindiDate (fun s : Str => if s = "x".data then some () else none)
        (fun _ => "d".data) "x".data ≠ []) :=
  formatToHindiDate_spec (fun s : Str => if s = "x".data then some () else none)
    (fun _ => "d".data) (fun _ => (by decide : "d".data ≠ ([] : Str))) (by decide) "x".data

/-! ### Frame creation and ordering (`createFrame`, page.tsx:90-154, 256-258) -/

/-- Embedding of `index.toString().padStart(3, "0")`: left-pad with `'0'` to
length 3 (longer strings are unchanged). -/
def padStart3 (s : Str) : Str := List.replicate (3 - s.length) '0' ++ s

/-- The decimal digit characters of `index.toString()`. -/
def natToChars (n : ℕ) : Str := Nat.toDigits 10 n

/-- The frame filename `` `frame${index.toString().padStart(3, "0")}.png` ``
(page.tsx:151). -/
def frameName (index : ℕ) : Str :=
  "frame".data ++ padStart3 (natToChars index) ++ ".png".data

/-- A rendered frame, modelled by its filename together with its rendering
inputs: `createFrame`'s PNG bytes are a deterministic function of the
headline, the 0-based index and the total count (page.tsx:90-154). -/
structure Frame where
  name : Str
  headline : Headline
  index : ℕ
  total : ℕ
deriving DecidableEq

/-- Embedding of `createFrame(headline, index, total)` (page.tsx:90-154). -/
def createFrame (h : Headline) (index total : ℕ) : Frame :=
  ⟨frameName index, h, index, total⟩

/-- Index-aware map underlying
`fetched.map((item, index) => createFrame(item, index, fetched.length))`
(page.tsx:256-258). -/
def renderFramesAux (total : ℕ) : ℕ → List Headline → List Frame
  | _, [] => []
  | i, h :: hs => createFrame h i total :: renderFramesAux total (i + 1) hs

/-- The frame list handed to the encoder, in input order. -/
def renderFrames (hs : List Headline) : List Frame := renderFramesAux hs.length 0 hs

/-- The `Promise.all` semantics for the concurrent renders: the renders complete
in an arbitrary `order`, each writing its result at its own index; the
collected array is indexed by input position, not by completion order. -/
def renderWithOrder (hs : List Headline) (order : List ℕ) : List (Option Frame) :=
  order.foldl (fun acc i =>
    match hs[i]? with
    | some h => acc.set i (some (createFrame h i hs.length))
    | none => acc) (List.replicate hs.length none)

theorem renderFramesAux_getElem? (total : ℕ) :
    ∀ (l : List Headline) (i j : ℕ),
      (renderFramesAux total i l)[j]? = (l[j]?).map (fun h => createFrame h (i + j) total) := by
  intro l
  induction l with
  | nil => intro i j; simp [renderFramesAux]
  | cons h hs ih =>
    intro i j
    cases j with
    | zero => simp [renderFramesAux]
    | succ j' =>
      rw [renderFramesAux]
      simp only [List.getElem?_cons_succ]
      rw [ih (i + 1) j']
      have harith : i + 1 + j' = i + (j' + 1) := by omega
      rw [harith]

theorem renderFrames_getElem? (hs : List Headline) (i : ℕ) :
    (renderFrames hs)[i]? = (hs[i]?).map (fun h => createFrame h i hs.length) := by
  rw [renderFrames, renderFramesAux_getElem?]
  simp

theorem renderFramesAux_length (total : ℕ) :
    ∀ (l : List Headline) (i : ℕ), (renderFramesAux total i l).length = l.length := by
  intro l
  induction l with
  | nil => intro i; rfl
  | cons h t ih =>
    intro i
    rw [renderFramesAux]
    simp [ih]

theorem renderFrames_length (hs : List Headline) :
    (renderFrames hs).length = hs.length := renderFramesAux_length _ hs 0

theorem renderWithOrder_foldl_getElem? (hs : List Headline) :
    ∀ (order : List ℕ) (acc : List (Option Frame)), acc.length = hs.length →
    ∀ j : ℕ,
      (order.foldl (fun acc i =>
        match hs[i]? with
        | some h => acc.set i (some (createFrame h i hs.length))
        | none => acc) acc)[j]? =
      if j ∈ order ∧ j < hs.length then
        (hs[j]?).map (fun h => some (createFrame h j hs.length))
      else acc[j]? := by
  intro order
  induction order with
  | nil =>
    intro acc hacc j
    simp
  | cons i os ih =>
    intro acc hacc j
    rw [List.foldl_cons]
    have hlen2 : (match hs[i]? with
        | some h => acc.set i (some (createFrame h i hs.length))
        | none => acc).length = hs.length := by
      cases hhi : hs[i]? <;> simp [hacc]
    rw [ih _ hlen2 j]
    by_cases hmem : j ∈ os ∧ j < hs.length
    · rw [if_pos hmem, if_pos ⟨List.mem_cons_of_mem _ hmem.1, hmem.2⟩]
    · rw [if_neg hmem]
      by_cases hj : j = i
      · subst hj
        by_cases hjl : j < hs.length
        · have hh : hs[j]? = some (hs[j]) := List.getElem?_eq_getElem hjl
          rw [if_pos ⟨List.mem_cons_self _ _, hjl⟩, hh]
          simp only [hh]
          rw [List.getElem?_set_self (by rw [hacc]; exact hjl)]
          rfl
        · rw [if_neg (fun hc => hjl hc.2)]
          have hh : hs[j]? = none := List.getElem?_eq_none (Nat.le_of_not_lt hjl)
          simp only [hh]
      · have hstep : (match hs[i]? with
            | some h => acc.set i (some (createFrame h i hs.length))
            | none => acc)[j]? = acc[j]? := by
          cases hhi : hs[i]? with
          | none => rfl
          | some h => exact List.getElem?_set_ne (fun hc => hj hc.symm)
        rw [hstep,
          if_neg (fun hc => hmem ⟨(List.mem_cons.mp hc.1).resolve_left hj, hc.2⟩)]

theorem renderWithOrder_eq (hs : List Headline) (order : List ℕ)
    (horder : ∀ i, i < hs.length → i ∈ order) :
    renderWithOrder hs order = (renderFrames hs).map some := by
  apply List.ext_getElem?
  intro j
  rw [renderWithOrder, renderWithOrder_foldl_getElem? hs order _ (by simp) j]
  by_cases hj : j < hs.length
  · rw [if_pos ⟨horder j hj, hj⟩, List.getElem?_map, renderFrames_getElem?]
    cases hh : hs[j]? <;> simp
  · rw [if_neg (fun hc => hj hc.2)]
    have h1 : (List.replicate hs.length (none : Option Frame))[j]? = none :=
      List.getElem?_eq_none (by simpa using Nat.le_of_not_lt hj)
    have h2 : ((renderFrames hs).map some)[j]? = none :=
      List.getElem?_eq_none
        (by rw [List.length_map, renderFrames_length]; exact Nat.le_of_not_lt hj)
    rw [h1, h2]

theorem renderFrames_names (hs : List Headline) :
    (renderFrames hs).map Frame.name = (List.range hs.length).map frameName := by
  apply List.ext_getElem?
  intro j
  rw [List.getElem?_map, List.getElem?_map, renderFrames_getElem?]
  by_cases hj : j < hs.length
  · rw [List.getElem?_eq_getElem hj, List.getElem?_range hj]
    rfl
  · rw [List.getElem?_eq_none (Nat.le_of_not_lt hj),
      List.getElem?_eq_none (by simpa using Nat.le_of_not_lt hj)]
    rfl

/-- C1: for every headline list of length at most 6, (a) the frame names
handed to the encoder are exactly `"frame000.png"` … `"frame00⟨n-1⟩.png"`,
zero-padded to three digits, in that order; (b) the `i`-th frame is rendered
from the `i`-th headline of the input list; and (c) collecting the
concurrent per-headline renders under any completion order that covers every
index yields exactly that frame list — completion order is irrelevant. -/
theorem renderFrames_names_and_order (hs : List Headline) (order : List ℕ)
    (h6 : hs.length ≤ 6) (horder : ∀ i, i < hs.length → i ∈ order) :
    (renderFrames hs).map Frame.name =
      (List.range hs.length).map
        (fun i => "frame00".data ++ [Char.ofNat (48 + i)] ++ ".png".data) ∧
    (∀ i : ℕ, (renderFrames hs)[i]? = (hs[i]?).map (fun h => createFrame h i hs.length)) ∧
    renderWithOrder hs order = (renderFrames hs).map some := by
  refine ⟨?_, renderFrames_getElem? hs, renderWithOrder_eq hs order horder⟩
  rw [renderFrames_names]
  apply List.map_congr_left
  intro i hi
  have hi6 : i < 6 := lt_of_lt_of_le (List.mem_range.mp hi) h6
  interval_cases i <;> decide

/-- C1 witness: two headlines rendered with completion order `[1, 0]`. -/
theorem renderFrames_names_and_order_witness :
    (renderFrames [⟨"A".data, [], [], []⟩, ⟨"B".data, [], [], []⟩]).map Frame.name =
      (List.range (([⟨"A".data, [], [], []⟩, ⟨"B".data, [], [], []⟩] : List Headline)).length).map
        (fun i => "frame00".data ++ [Char.ofNat (48 + i)] ++ ".png".data) ∧
    (∀ i : ℕ,
      (renderFrames [⟨"A".data, [], [], []⟩, ⟨"B".data, [], [], []⟩])[i]? =
      (([⟨"A".data, [], [], []⟩, ⟨"B".data, [], [], []⟩] : List Headline)[i]?).map
        (fun h => createFrame h i 2)) ∧
    renderWithOrder [⟨"A".data, [], [], []⟩, ⟨"B".data, [], [], []⟩] [1, 0] =
      (renderFrames [⟨"A".data, [], [], []⟩, ⟨"B".data, [], [], []⟩]).map some :=
  renderFrames_names_and_order [⟨"A".data, [], [], []⟩, ⟨"B".data, [], [], []⟩] [1, 0]
    (by decide) (by
      intro i hi
      have hi2 : i < 2 := by simpa using hi
      interval_cases i <;> simp)

/-! ### The run (`handleGenerate`, page.tsx:223-313) as a state-update trace -/

/-- The five-valued run status (page.tsx:14). -/
inductive GenerationStatus where
  | idle
  | fetching
  | rendering
  | done
  | error
deriving DecidableEq

/-- One state update performed during a run: the `setError`, `setVideoUrl`,
`setProgress`, `setStatus`, `setIsGenerating` and `setHeadlines` calls of
`handleGenerate` and of the encoder progress handler, in execution order.
The video URL is modelled by its presence. -/
inductive Ev where
  | setError (msg : Option Str)
  | setVideoUrl (present : Bool)
  | setProgress (v : ℤ)
  | setStatus (s : GenerationStatus)
  | setGenerating (b : Bool)
  | setHeadlines (hs : List Headline)
deriving DecidableEq

/-- Outcome of `fetch("/api/headlines")` plus body decoding (page.tsx:236-243):
a non-ok response (carrying the optional `payload.error`), a thrown transport
error, or a payload whose `headlines` field is coerced to a list by the
`Array.isArray` check. -/
inductive FetchOut where
  | notOk (errPayload : Option Str)
  | throws (msg : Str)
  | ok (fetched : List Headline)

/-- The environment determining one run: the fetch outcome, whether the
ffmpeg load throws, whether a canvas 2d context is available, the progress
fractions the encoder emits during `exec`, and whether `exec`/`readFile`
throw. -/
structure RunEnv where
  fetch : FetchOut
  loadErr : Option Str
  ctxOk : Bool
  encodeEvents : List ℚ
  execErr : Option Str

/-- The empty-feed error message (page.tsx:246). -/
def noHeadlinesMsg : Str := "आज के लिए कोई सुर्ख़ियाँ उपलब्ध नहीं हैं।".data

/-- The fallback fetch-failure message (page.tsx:239). -/
def headlinesFetchFailedMsg : Str := "Headlines fetch failed".data

/-- The missing-canvas-context message (page.tsx:101). -/
def canvasUnavailableMsg : Str := "Canvas rendering context unavailable".data

/-- Embedding of `Math.round`: round half toward positive infinity. -/
def jsRound (q : ℚ) : ℤ := ⌊q + 1/2⌋

/-- The encoder progress handler (page.tsx:183-187):
`setProgress(Math.min(100, Math.round(raw * 100)))`. -/
def encodeProgressValue (raw : ℚ) : ℤ := min 100 (jsRound (raw * 100))

/-- The `try` block of `handleGenerate` (page.tsx:235-303): the state updates
it performs, and the message of the error it throws, if any. -/
def runBody (env : RunEnv) : List Ev × Option Str :=
  match env.fetch with
  | FetchOut.notOk p => ([], some (p.getD headlinesFetchFailedMsg))
  | FetchOut.throws m => ([], some m)
  | FetchOut.ok fetched =>
    if fetched = [] then ([], some noHeadlinesMsg)
    else
      let e1 := [Ev.setHeadlines fetched, Ev.setStatus GenerationStatus.rendering,
        Ev.setProgress 15]
      match env.loadErr with
      | some m => (e1, some m)
      | none =>
        if env.ctxOk = false then (e1, some canvasUnavailableMsg)
        else
          let e2 := e1 ++ [Ev.setProgress 40, Ev.setProgress 55] ++
            env.encodeEvents.map (fun q => Ev.setProgress (encodeProgressValue q))
          match env.execErr with
          | some m => (e2, some m)
          | none =>
            (e2 ++ [Ev.setProgress 85, Ev.setVideoUrl true, Ev.setProgress 100,
              Ev.setStatus GenerationStatus.done], none)

/-- Embedding of `handleGenerate` (page.tsx:223-313): the reset prologue
(page.tsx:224-233), the `try` body, the `catch` handler
(page.tsx:304-309) and the `finally` clause (page.tsx:310-312). -/
def handleGenerate (env : RunEnv) : List Ev :=
  [Ev.setError none, Ev.setVideoUrl false, Ev.setProgress 0,
    Ev.setStatus GenerationStatus.fetching, Ev.setGenerating true, Ev.setProgress 5] ++
  (runBody env).1 ++
  (match (runBody env).2 with
   | some m => [Ev.setError (some m), Ev.setStatus GenerationStatus.error]
   | none => []) ++
  [Ev.setGenerating false]

/-- The successive values written to the progress indicator during a run. -/
def progressSeq (t : List Ev) : List ℤ :=
  t.filterMap (fun e => match e with | Ev.setProgress v => some v | _ => none)

/-- The successive values written to the status label during a run. -/
def statusSeq (t : List Ev) : List GenerationStatus :=
  t.filterMap (fun e => match e with | Ev.setStatus s => some s | _ => none)

/-- A list of progress values is nondecreasing. -/
def nondecB : List ℤ → Bool
  | [] => true
  | [_] => true
  | a :: b :: rest => (decide (a ≤ b)) && nondecB (b :: rest)

/-- C4: whenever the headlines fetch succeeds but the coerced headline list
is empty, the run's final status is `error`, the trace carries the specific
"no headlines available today" message, and the statuses `rendering` and
`done` are never set. -/
theorem handleGenerate_empty_headlines (env : RunEnv)
    (hf : env.fetch = FetchOut.ok []) :
    (statusSeq (handleGenerate env)).getLast? = some GenerationStatus.error ∧
    Ev.setError (some noHeadlinesMsg) ∈ handleGenerate env ∧
    Ev.setStatus GenerationStatus.rendering ∉ handleGenerate env ∧
    Ev.setStatus GenerationStatus.done ∉ handleGenerate env := by
  obtain ⟨f, l, c, ev, ex⟩ := env
  simp only at hf
  subst hf
  refine ⟨rfl, by simp [handleGenerate, runBody], ?_, ?_⟩ <;>
    simp [handleGenerate, runBody, noHeadlinesMsg]

/-- C4 witness: a concrete environment whose fetch succeeds with an empty
list. -/
theorem handleGenerate_empty_headlines_witness :
    (statusSeq (handleGenerate ⟨FetchOut.ok [], none, true, [], none⟩)).getLast? =
      some GenerationStatus.error ∧
    Ev.setError (some noHeadlinesMsg) ∈
      handleGenerate ⟨FetchOut.ok [], none, true, [], none⟩ ∧
    Ev.setStatus GenerationStatus.rendering ∉
      handleGenerate ⟨FetchOut.ok [], none, true, [], none⟩ ∧
    Ev.setStatus GenerationStatus.done ∉
      handleGenerate ⟨FetchOut.ok [], none, true, [], none⟩ :=
  handleGenerate_empty_headlines ⟨FetchOut.ok [], none, true, [], none⟩ rfl

/-- C8 counterexample: in a successful run during which the encoder emits a
progress event with fraction 1/10, the progress sequence is
`[0, 5, 15, 40, 55, 10, 85, 100]` — the encoder-derived update sets 10 right
after the checkpoint 55, so the progress value decreases. -/
theorem progress_monotone_counterexample :
    nondecB (progressSeq (handleGenerate
      ⟨FetchOut.ok [⟨"A".data, [], [], []⟩], none, true, [(1 : ℚ)/10], none⟩)) = false := by
  have hv : encodeProgressValue ((10 : ℚ)⁻¹) = 10 := by
    norm_num [encodeProgressValue, jsRound]
  simp [handleGenerate, runBody, progressSeq, hv, nondecB]

/-- C8 (amended): the checkpoint progress updates alone are nondecreasing:
in any run during which the encoder emits no progress events the progress
sequence is nondecreasing (0, 5, then 15, 40, 55, 85, 100 as far as the run
gets).  An encoder-derived update, however, writes `min(100, round(raw*100))`
without clamping to the previous value, and can decrease the progress (see
the counterexample). -/
theorem progress_monotone_no_events (env : RunEnv) (hev : env.encodeEvents = []) :
    nondecB (progressSeq (handleGenerate env)) = true := by
  obtain ⟨f, l, c, ev, ex⟩ := env
  simp only at hev
  subst hev
  cases f with
  | notOk p => simp [handleGenerate, runBody, progressSeq, nondecB]
  | throws m => simp [handleGenerate, runBody, progressSeq, nondecB]
  | ok fetched =>
    cases fetched with
    | nil => simp [handleGenerate, runBody, progressSeq, nondecB]
    | cons h hs =>
      cases l with
      | some m => simp [handleGenerate, runBody, progressSeq, nondecB]
      | none =>
        cases c with
        | false => simp [handleGenerate, runBody, progressSeq, nondecB]
        | true =>
          cases ex with
          | some m => simp [handleGenerate, runBody, progressSeq, nondecB]
          | none => simp [handleGenerate, runBody, progressSeq, nondecB]

/-- C8 witness: a concrete successful run with no encoder events. -/
theorem progress_monotone_no_events_witness :
    nondecB (progressSeq (handleGenerate
      ⟨FetchOut.ok [⟨"A".data, [], [], []⟩], none, true, [], none⟩)) = true :=
  progress_monotone_no_events ⟨FetchOut.ok [⟨"A".data, [], [], []⟩], none, true, [], none⟩ rfl
